import Mathlib

/-!
Verification of the users store and query logic of the postman_demo
repository (src/services/usersService.js and
src/controllers/usersController.js), shallowly embedded in Lean.

Conventions of the embedding:
* JS objects for user records become the structure `User`; a field that
  may be absent (`updatedAt`, optional payload fields) becomes an
  `Option`.
* `uuidv4()` and `new Date().toISOString()` are nondeterministic inputs
  of the service; they are modelled as explicit arguments (`newId`,
  `now`).
* Thrown service errors become `Except SvcError`; the `null` not-found
  sentinel becomes `Option`.
* The service is only ever invoked by the controller, which passes the
  sanitized non-negative `limit`/`offset` integers it computes; those
  are modelled as `Nat`, for which JS `slice(offset, offset + limit)`
  is `drop offset` followed by `take limit`.
* `Array.prototype.sort` is a stable in-place sort (ECMAScript 2019);
  it is modelled by `List.mergeSort`, which is stable.
-/

namespace PostmanDemo

/-- A user record as stored by the service. -/
structure User where
  id : String
  name : String
  email : String
  role : String
  createdAt : String
  updatedAt : Option String := none
deriving DecidableEq

/-- First seeded record (usersService.js lines 10-16). -/
def ashaUser : User :=
  { id := "11111111-1111-4111-8111-111111111111", name := "Asha",
    email := "asha@example.com", role := "student",
    createdAt := "2025-09-24T00:00:00.000Z" }

/-- Second seeded record (lines 17-23). -/
def raviUser : User :=
  { id := "22222222-2222-4222-8222-222222222222", name := "Ravi",
    email := "ravi@example.com", role := "student",
    createdAt := "2025-09-24T00:00:00.000Z" }

/-- Third seeded record (lines 24-30). -/
def mayaUser : User :=
  { id := "33333333-3333-4333-8333-333333333333", name := "Maya",
    email := "maya@example.com", role := "instructor",
    createdAt := "2025-09-24T00:00:00.000Z" }

/-- The seeded in-memory store (usersService.js lines 9-31). -/
def seedUsers : List User := [ashaUser, raviUser, mayaUser]

/-- Options object received by the service `list` (line 38).  `limit`
and `offset` default to 10 and 0 (line 39); `role` and `sort` are
absent unless supplied. -/
structure ListOptions where
  limit : Nat := 10
  offset : Nat := 0
  role : Option String := none
  sort : Option String := none
deriving DecidableEq

/-- JS String.prototype.toLowerCase, as used on the ASCII emails of
this service: lowercase every character. -/
def jsToLower (s : String) : String := ⟨s.data.map Char.toLower⟩

/-- Lexicographic strict order on character lists: the semantics of
the JS `<` and `>` comparisons on strings (code-unit lexicographic
order). -/
def charListLt : List Char → List Char → Bool
  | [], [] => false
  | [], _ :: _ => true
  | _ :: _, [] => false
  | a :: as, b :: bs => if a < b then true else if b < a then false else charListLt as bs

/-- JS `a < b` on strings. -/
def strLt (a b : String) : Bool := charListLt a.data b.data

/-- The characters before the first colon. -/
def takeUntilColon : List Char → List Char
  | [] => []
  | c :: cs => if c = ':' then [] else c :: takeUntilColon cs

/-- The characters after the first colon, if any colon occurs. -/
def dropThroughColon : List Char → Option (List Char)
  | [] => none
  | c :: cs => if c = ':' then some cs else dropThroughColon cs

/-- JS sort string split at colons, destructured into
`[field, direction]`: the first two components of the split.  A
missing direction (no colon at all) is modelled by the empty string
(like the split's own empty component, the JS `undefined` compares
unequal to the string desc, giving the ascending branch). -/
def splitColon (s : String) : String × String :=
  let field : String := ⟨takeUntilColon s.data⟩
  let dir : String :=
    match dropThroughColon s.data with
    | none => ""
    | some r => ⟨takeUntilColon r⟩
  (field, dir)

/-- The sort field accessed by the comparator (`a[field]`, lines
52-53); only evaluated for field = name or field = createdAt. -/
def sortKey (field : String) (u : User) : String :=
  if field = "name" then u.name else u.createdAt

/-- The comparator of usersService.js lines 51-56:
`aVal < bVal ? -1 : aVal > bVal ? 1 : 0`, negated when the direction
is desc. -/
def userCmp (field dir : String) (a b : User) : Int :=
  let av := sortKey field a
  let bv := sortKey field b
  let comparison : Int := if strLt av bv then -1 else if strLt bv av then 1 else 0
  if dir = "desc" then -comparison else comparison

/-- The sort step of `list` (lines 47-58): sorts only when a sort
option is present and its field is name or createdAt (the guard
`field && (field === name || field === createdAt)`); otherwise the
order is untouched. -/
def sortStep (sort : Option String) (l : List User) : List User :=
  match sort with
  | none => l
  | some s =>
      let fd := splitColon s
      if fd.1 = "name" ∨ fd.1 = "createdAt" then
        l.mergeSort (fun a b => decide (userCmp fd.1 fd.2 a b ≤ 0))
      else l

/-- The role filter of `list` (lines 42-45): strict equality on the
role field.  The controller maps an empty (falsy) role parameter to an
absent one, so the truthy guard `if (role)` is `Option.isSome` here. -/
def roleStep (role : Option String) (l : List User) : List User :=
  match role with
  | none => l
  | some r => l.filter (fun u => u.role == r)

/-- usersService.list (lines 38-62): copy the store, filter by role,
stable-sort, then slice the page `[offset, offset + limit)`.  Note the
source returns this bare page array; it carries no total count. -/
def list (store : List User) (opts : ListOptions) : List User :=
  let result := store
  let result := roleStep opts.role result
  let result := sortStep opts.sort result
  (result.drop opts.offset).take opts.limit

/-- Modelled from the spec (section 4.2 Query Engine), which is what
the controller relies on when destructuring `items` and `total` from
the service result: the page plus the count of records matching the
filter before pagination.  The `total` component is missing from
src/services/usersService.js. -/
def querySpec (store : List User) (opts : ListOptions) : List User × Nat :=
  let filtered := roleStep opts.role store
  let sorted := sortStep opts.sort filtered
  ((sorted.drop opts.offset).take opts.limit, filtered.length)

/-- usersService.getById (lines 69-71). -/
def getById (store : List User) (uid : String) : Option User :=
  store.find? (fun u => u.id == uid)

/-- The only service error kind: the duplicate-email validation error
thrown at lines 84-87 and 123-126. -/
inductive SvcError where
  | duplicateEmail
deriving DecidableEq

/-- Payload reaching `create` after the Joi validation gate
(stripUnknown): exactly the fields name, email and optional role. -/
structure CreatePayload where
  name : String
  email : String
  role : Option String := none
deriving DecidableEq

/-- JS `payload.role || defaultValue` (line 94): an absent or empty
(falsy) role yields the default. -/
def strOr (o : Option String) (dflt : String) : String :=
  match o with
  | some s => if s = "" then dflt else s
  | none => dflt

/-- The record built by create (lines 90-96): fresh id, payload name
and email, defaulted role, stamped creation time, no updatedAt. -/
def newRecord (p : CreatePayload) (newId now : String) : User :=
  { id := newId, name := p.name, email := p.email,
    role := strOr p.role "student", createdAt := now }

/-- usersService.create (lines 78-100): reject when some existing
record matches the email case-insensitively, otherwise append the new
record and return it together with the new store. -/
def create (store : List User) (p : CreatePayload) (newId now : String) :
    Except SvcError (User × List User) :=
  if store.any (fun u => jsToLower u.email == jsToLower p.email) then
    .error .duplicateEmail
  else
    let newUser := newRecord p newId now
    .ok (newUser, store ++ [newUser])

/-- Payload reaching `update` after the Joi validation gate
(stripUnknown, all fields optional): a subset of name, email, role. -/
structure UpdatePayload where
  name : Option String := none
  email : Option String := none
  role : Option String := none
deriving DecidableEq

/-- The JS spread merge at lines 131-135: payload fields overwrite the
matching record fields, everything else is preserved, and updatedAt is
stamped. -/
def mergeUser (old : User) (p : UpdatePayload) (now : String) : User :=
  { id := old.id
    name := p.name.getD old.name
    email := p.email.getD old.email
    role := p.role.getD old.role
    createdAt := old.createdAt
    updatedAt := some now }

/-- `users[userIndex] = ...`: replace the first record whose id
matches (findIndex finds the first match). -/
def setFirst (store : List User) (uid : String) (f : User → User) : List User :=
  match store with
  | [] => []
  | u :: rest => if u.id == uid then f u :: rest else u :: setFirst rest uid f

/-- The duplicate check of update (lines 117-128): only performed when
the payload email is truthy (the guard `if (payload.email)` is false
for an absent or empty email), and it ignores the record being
updated. -/
def dupCheck (store : List User) (uid : String) (p : UpdatePayload) : Bool :=
  match p.email with
  | some e => e != "" && store.any (fun u => jsToLower u.email == jsToLower e && u.id != uid)
  | none => false

/-- usersService.update (lines 108-138).  findIndex plus indexed
assignment is modelled as find? plus first-match replacement. -/
def update (store : List User) (uid : String) (p : UpdatePayload) (now : String) :
    Except SvcError (Option (User × List User)) :=
  match store.find? (fun u => u.id == uid) with
  | none => .ok none
  | some old =>
      if dupCheck store uid p then .error .duplicateEmail
      else .ok (some (mergeUser old p now, setFirst store uid (fun u => mergeUser u p now)))

/-- usersService.remove (lines 145-156): findIndex plus splice(i, 1),
i.e. delete the first matching record in place, reporting whether a
deletion occurred. -/
def remove (store : List User) (uid : String) : Bool × List User :=
  match store with
  | [] => (false, [])
  | u :: rest =>
      if u.id == uid then (true, rest)
      else
        let r := remove rest uid
        (r.1, u :: r.2)

/-- A numeric query parameter as the controller sees it after
`limit ? parseInt(limit, 10) : 10`: absent (missing or empty, the
falsy branch), non-numeric (parseInt returned NaN), or an integer. -/
inductive QParam where
  | absent
  | nan
  | num (n : Int)
deriving DecidableEq

/-- Controller limit sanitization (usersController.js lines 18-25):
absent defaults to 10; NaN or non-positive values reset to 10; values
above MAX_LIMIT = 100 cap at 100. -/
def effLimit : QParam → Int
  | .absent => 10
  | .nan => 10
  | .num n => if n ≤ 0 then 10 else if n > 100 then 100 else n

/-- Controller offset sanitization (lines 19-23): absent defaults to
0; NaN or negative values reset to 0. -/
def effOffset : QParam → Int
  | .absent => 0
  | .nan => 0
  | .num n => if n < 0 then 0 else n

/-- JS `x || undefined` (controller lines 30-31): an empty string
becomes absent. -/
def normParam (o : Option String) : Option String :=
  match o with
  | some s => if s = "" then none else some s
  | none => none

/-- The options object the controller passes to the service (lines
27-32), with the sanitized integers converted to the Nat slice model
(they are provably non-negative). -/
def controllerOptions (lq oq : QParam) (role sort : Option String) : ListOptions :=
  { limit := (effLimit lq).toNat
    offset := (effOffset oq).toNat
    role := normParam role
    sort := normParam sort }

/-- The full read path: controller sanitization followed by the
service list call (controller line 35). -/
def controllerList (store : List User) (lq oq : QParam) (role sort : Option String) :
    List User :=
  list store (controllerOptions lq oq role sort)

/-- One service call in a trace of store operations. -/
inductive Op where
  | create (p : CreatePayload) (newId now : String)
  | update (uid : String) (p : UpdatePayload) (now : String)
  | remove (uid : String)
  | listq (opts : ListOptions)
deriving DecidableEq

/-- The store after one service call: a thrown error or a not-found
sentinel leaves the store untouched, and `list` copies the array
(line 40, spread of users) and never writes back. -/
def applyOp (store : List User) : Op → List User
  | .create p newId now =>
      match create store p newId now with
      | .ok r => r.2
      | .error _ => store
  | .update uid p now =>
      match update store uid p now with
      | .ok (some r) => r.2
      | _ => store
  | .remove uid => (remove store uid).2
  | .listq _ => store

/-- Run a trace of service calls. -/
def runOps (store : List User) : List Op → List User
  | [] => store
  | op :: rest => runOps (applyOp store op) rest

/-- The ids of the records in the store, in store order. -/
def ids (store : List User) : List String := store.map (fun u => u.id)

/-- The lowercased emails of the records in the store, in store
order. -/
def lowerEmails (store : List User) : List String :=
  store.map (fun u => jsToLower u.email)

/-- Environment guarantees for one call, relative to the set of ids
seen so far: the id handed out by uuidv4 is globally fresh, and an
update payload email passed the Joi email-format check, so it is never
the empty string. -/
def validOp (used : List String) : Op → Bool
  | .create _ newId _ => !(used.contains newId)
  | .update _ p _ => p.email != some ""
  | _ => true

/-- The known ids after a call. -/
def usedAfter (op : Op) (used : List String) : List String :=
  match op with
  | .create _ newId _ => newId :: used
  | _ => used

/-- Environment guarantees along a whole trace. -/
def validOps (used : List String) : List Op → Bool
  | [] => true
  | op :: rest => validOp used op && validOps (usedAfter op used) rest

/-- The record of successfully updated ids after one call (pure
instrumentation: it reads the semantics, it does not change it). -/
def updAfter (store : List User) (upd : List String) : Op → List String
  | .update uid p now =>
      match update store uid p now with
      | .ok (some _) => uid :: upd
      | _ => upd
  | _ => upd

/-- Run a trace while recording which ids were successfully
updated. -/
def runTr : List User × List String → List Op → List User × List String
  | s, [] => s
  | (store, upd), op :: rest => runTr (applyOp store op, updAfter store upd op) rest

/-!  ## Order theory for the JS string comparison  -/

theorem charListLt_irrefl : ∀ l : List Char, charListLt l l = false
  | [] => rfl
  | a :: as => by
      simp only [charListLt, lt_irrefl a, if_false]
      exact charListLt_irrefl as

theorem charListLt_asymm : ∀ {a b : List Char},
    charListLt a b = true → charListLt b a = false
  | [], [], h => by simpa [charListLt] using h
  | [], _ :: _, _ => by simp [charListLt]
  | _ :: _, [], h => by simpa [charListLt] using h
  | a :: as, b :: bs, h => by
      by_cases hab : a < b
      · simp [charListLt, hab, not_lt_of_lt hab, ne_of_gt hab, lt_irrefl]
      · by_cases hba : b < a
        · simp [charListLt, hab, hba] at h
        · have hrec := @charListLt_asymm as bs
          simp only [charListLt, hab, hba, if_false] at h ⊢
          exact hrec h

theorem charListLt_trans : ∀ {a b c : List Char},
    charListLt a b = true → charListLt b c = true → charListLt a c = true
  | [], [], _, h, _ => by simpa [charListLt] using h
  | [], _ :: _, [], _, h => by simpa [charListLt] using h
  | [], _ :: _, _ :: _, _, _ => by simp [charListLt]
  | _ :: _, [], _, h, _ => by simpa [charListLt] using h
  | _ :: _, _ :: _, [], _, h => by simpa [charListLt] using h
  | a :: as, b :: bs, c :: cs, h1, h2 => by
      by_cases hab : a < b
      · by_cases hbc : b < c
        · simp [charListLt, lt_trans hab hbc]
        · by_cases hcb : c < b
          · simp [charListLt, hbc, hcb] at h2
          · have hbc2 : b = c := le_antisymm (not_lt.mp hcb) (not_lt.mp hbc)
            subst hbc2
            simp [charListLt, hab]
      · by_cases hba : b < a
        · simp [charListLt, hab, hba] at h1
        · have hab2 : a = b := le_antisymm (not_lt.mp hba) (not_lt.mp hab)
          subst hab2
          simp only [charListLt, lt_irrefl, if_false] at h1
          by_cases hbc : a < c
          · simp [charListLt, hbc]
          · by_cases hcb : c < a
            · simp [charListLt, hbc, hcb] at h2
            · simp only [charListLt, hbc, hcb, if_false] at h2 ⊢
              exact charListLt_trans h1 h2

theorem charListLt_conn : ∀ {a b : List Char},
    charListLt a b = false → charListLt b a = false → a = b
  | [], [], _, _ => rfl
  | [], _ :: _, h, _ => by simp [charListLt] at h
  | _ :: _, [], _, h => by simp [charListLt] at h
  | a :: as, b :: bs, h1, h2 => by
      by_cases hab : a < b
      · simp [charListLt, hab] at h1
      · by_cases hba : b < a
        · simp [charListLt, hba] at h2
        · have hab2 : a = b := le_antisymm (not_lt.mp hba) (not_lt.mp hab)
          subst hab2
          simp only [charListLt, lt_irrefl, if_false] at h1 h2
          rw [charListLt_conn h1 h2]

theorem strLt_irrefl (a : String) : strLt a a = false :=
  charListLt_irrefl a.data

theorem strLt_asymm {a b : String} (h : strLt a b = true) : strLt b a = false :=
  charListLt_asymm h

theorem strLt_trans {a b c : String} (h1 : strLt a b = true)
    (h2 : strLt b c = true) : strLt a c = true :=
  charListLt_trans h1 h2

theorem strLt_conn {a b : String} (h1 : strLt a b = false)
    (h2 : strLt b a = false) : a = b := by
  cases a with
  | mk da =>
      cases b with
      | mk db => exact congrArg String.mk (charListLt_conn h1 h2)

/-- Transitivity of the non-strict order induced by the JS string
comparison. -/
theorem strGe_trans {a b c : String} (h1 : strLt b a = false)
    (h2 : strLt c b = false) : strLt c a = false := by
  cases hca : strLt c a with
  | false => rfl
  | true =>
      exfalso
      cases hbc : strLt b c with
      | false =>
          have hbc2 : b = c := strLt_conn hbc h2
          subst hbc2
          rw [hca] at h1
          exact Bool.noConfusion h1
      | true =>
          have hac := strLt_asymm hca
          cases hab : strLt a b with
          | false =>
              have hab2 : a = b := strLt_conn hab h1
              subst hab2
              rw [hbc] at hac
              exact Bool.noConfusion hac
          | true =>
              rw [strLt_asymm (strLt_trans hab hbc)] at hca
              exact Bool.noConfusion hca

/-!  ## Structural lemmas about find?, setFirst and remove  -/

theorem find?_id_none {store : List User} {uid : String} :
    store.find? (fun u => u.id == uid) = none ↔ ∀ u ∈ store, u.id ≠ uid := by
  rw [List.find?_eq_none]
  simp

theorem find?_id_decomp : ∀ {store : List User} {uid : String} {old : User},
    store.find? (fun u => u.id == uid) = some old →
    ∃ pre post, store = pre ++ old :: post ∧ old.id = uid ∧ ∀ y ∈ pre, y.id ≠ uid
  | [], uid, old, h => by simp [List.find?] at h
  | u :: rest, uid, old, h => by
      by_cases hu : u.id = uid
      · rw [List.find?_cons_of_pos _ (by simpa using hu)] at h
        cases h
        exact ⟨[], rest, rfl, hu, by simp⟩
      · rw [List.find?_cons_of_neg _ (by simpa using hu)] at h
        obtain ⟨pre, post, heq, hid, hpre⟩ := find?_id_decomp h
        refine ⟨u :: pre, post, by rw [heq]; rfl, hid, ?_⟩
        intro y hy
        rcases List.mem_cons.mp hy with h1 | h1
        · rw [h1]; exact hu
        · exact hpre y h1

theorem setFirst_of_none (f : User → User) : ∀ {store : List User} {uid : String},
    (∀ u ∈ store, u.id ≠ uid) → setFirst store uid f = store
  | [], _, _ => rfl
  | u :: rest, uid, h => by
      have hu : ¬ (u.id == uid) = true := by
        simpa using h u (List.mem_cons_self u rest)
      simp only [setFirst, if_neg hu]
      rw [setFirst_of_none f (fun y hy => h y (List.mem_cons_of_mem u hy))]

theorem setFirst_decomp (f : User → User) {uid : String} {old : User} :
    ∀ (pre : List User) (post : List User),
    (∀ y ∈ pre, y.id ≠ uid) → old.id = uid →
    setFirst (pre ++ old :: post) uid f = pre ++ f old :: post
  | [], post, _, hid => by
      simp [setFirst, hid]
  | u :: pre, post, hpre, hid => by
      have hu : ¬ (u.id == uid) = true := by
        simpa using hpre u (List.mem_cons_self u pre)
      simp only [List.cons_append, setFirst, if_neg hu, List.append_eq]
      rw [setFirst_decomp f pre post (fun y hy => hpre y (List.mem_cons_of_mem u hy)) hid]

theorem remove_of_none : ∀ {store : List User} {uid : String},
    (∀ u ∈ store, u.id ≠ uid) → remove store uid = (false, store)
  | [], _, _ => rfl
  | u :: rest, uid, h => by
      have hu : ¬ (u.id == uid) = true := by
        simpa using h u (List.mem_cons_self u rest)
      simp only [remove, if_neg hu]
      rw [remove_of_none (fun y hy => h y (List.mem_cons_of_mem u hy))]

theorem remove_decomp {uid : String} {w : User} :
    ∀ (pre : List User) (post : List User),
    (∀ y ∈ pre, y.id ≠ uid) → w.id = uid →
    remove (pre ++ w :: post) uid = (true, pre ++ post)
  | [], post, _, hid => by
      simp [remove, hid]
  | u :: pre, post, hpre, hid => by
      have hu : ¬ (u.id == uid) = true := by
        simpa using hpre u (List.mem_cons_self u pre)
      simp only [List.cons_append, remove, if_neg hu, List.append_eq]
      rw [remove_decomp pre post (fun y hy => hpre y (List.mem_cons_of_mem u hy)) hid]

theorem remove_sublist : ∀ (store : List User) (uid : String),
    (remove store uid).2.Sublist store
  | [], _ => List.Sublist.refl []
  | u :: rest, uid => by
      by_cases hu : (u.id == uid) = true
      · simp only [remove, if_pos hu]
        exact List.sublist_cons_self u rest
      · simp only [remove, if_neg hu]
        exact List.Sublist.cons₂ u (remove_sublist rest uid)

/-- Every remove call is either a miss (store untouched, result false)
or the excision of the first record carrying the id. -/
theorem remove_total_cases (store : List User) (uid : String) :
    (remove store uid = (false, store) ∧ ∀ u ∈ store, u.id ≠ uid)
    ∨ ∃ pre w post, store = pre ++ w :: post ∧ w.id = uid ∧ (∀ y ∈ pre, y.id ≠ uid)
        ∧ remove store uid = (true, pre ++ post) := by
  cases h : store.find? (fun u => u.id == uid) with
  | none =>
      left
      exact ⟨remove_of_none (find?_id_none.mp h), find?_id_none.mp h⟩
  | some w =>
      right
      obtain ⟨pre, post, heq, hid, hpre⟩ := find?_id_decomp h
      exact ⟨pre, w, post, heq, hid, hpre, by rw [heq]; exact remove_decomp pre post hpre hid⟩

theorem ids_append (a b : List User) : ids (a ++ b) = ids a ++ ids b := by
  simp [ids]

theorem ids_setFirst (f : User → User) (hf : ∀ u, (f u).id = u.id) :
    ∀ (store : List User) (uid : String), ids (setFirst store uid f) = ids store
  | [], _ => rfl
  | u :: rest, uid => by
      by_cases hu : (u.id == uid) = true
      · simp only [setFirst, if_pos hu, ids, List.map_cons, hf u]
      · simp only [setFirst, if_neg hu, ids, List.map_cons]
        have := ids_setFirst f hf rest uid
        simp only [ids] at this
        rw [this]

/-!  ## Comparator and sort characterization  -/

theorem userCmp_nonpos_asc {dir : String} (hdir : ¬ dir = "desc") (field : String)
    (a b : User) :
    userCmp field dir a b ≤ 0 ↔ strLt (sortKey field b) (sortKey field a) = false := by
  cases hab : strLt (sortKey field a) (sortKey field b) with
  | true =>
      simp [userCmp, hab, hdir, strLt_asymm hab]
  | false =>
      cases hba : strLt (sortKey field b) (sortKey field a) with
      | true => simp [userCmp, hab, hba, hdir]
      | false => simp [userCmp, hab, hba, hdir]

theorem userCmp_nonpos_desc (field : String) (a b : User) :
    userCmp field "desc" a b ≤ 0 ↔ strLt (sortKey field a) (sortKey field b) = false := by
  cases hab : strLt (sortKey field a) (sortKey field b) with
  | true => simp [userCmp, hab]
  | false =>
      cases hba : strLt (sortKey field b) (sortKey field a) with
      | true => simp [userCmp, hab, hba]
      | false => simp [userCmp, hab, hba]

theorem userCmpLe_trans (field dir : String) (a b c : User)
    (h1 : decide (userCmp field dir a b ≤ 0) = true)
    (h2 : decide (userCmp field dir b c ≤ 0) = true) :
    decide (userCmp field dir a c ≤ 0) = true := by
  rw [decide_eq_true_iff] at h1 h2 ⊢
  by_cases hdir : dir = "desc"
  · subst hdir
    rw [userCmp_nonpos_desc] at h1 h2 ⊢
    exact strGe_trans h2 h1
  · rw [userCmp_nonpos_asc hdir] at h1 h2 ⊢
    exact strGe_trans h1 h2

theorem userCmpLe_total (field dir : String) (a b : User) :
    decide (userCmp field dir a b ≤ 0) || decide (userCmp field dir b a ≤ 0) := by
  rw [Bool.or_eq_true, decide_eq_true_iff, decide_eq_true_iff]
  by_cases hdir : dir = "desc"
  · subst hdir
    rw [userCmp_nonpos_desc, userCmp_nonpos_desc]
    cases hab : strLt (sortKey field a) (sortKey field b) with
    | true => exact Or.inr (strLt_asymm hab)
    | false => exact Or.inl rfl
  · rw [userCmp_nonpos_asc hdir, userCmp_nonpos_asc hdir]
    cases hab : strLt (sortKey field a) (sortKey field b) with
    | true => exact Or.inl (strLt_asymm hab)
    | false => exact Or.inr rfl

theorem userCmp_zero_of_keys_eq (field dir : String) {a b : User}
    (h : sortKey field a = sortKey field b) : userCmp field dir a b = 0 := by
  simp [userCmp, h, strLt_irrefl]

/-- The stable sort applied by the sort step for a recognized field. -/
def jsSortUsers (field dir : String) (l : List User) : List User :=
  l.mergeSort (fun a b => decide (userCmp field dir a b ≤ 0))

theorem sortStep_eq_jsSortUsers (l : List User) (s field dir : String)
    (hs : splitColon s = (field, dir))
    (hf : field = "name" ∨ field = "createdAt") :
    sortStep (some s) l = jsSortUsers field dir l := by
  simp only [sortStep, hs, jsSortUsers]
  rw [if_pos hf]

theorem sortStep_invalid (l : List User) (s field dir : String)
    (hs : splitColon s = (field, dir))
    (hf : ¬ (field = "name" ∨ field = "createdAt")) :
    sortStep (some s) l = l := by
  simp only [sortStep, hs]
  rw [if_neg hf]

theorem jsSortUsers_perm (field dir : String) (l : List User) :
    (jsSortUsers field dir l).Perm l :=
  List.mergeSort_perm l _

theorem jsSortUsers_sorted_asc (field : String) {dir : String} (hdir : ¬ dir = "desc")
    (l : List User) :
    (jsSortUsers field dir l).Pairwise
      (fun a b => strLt (sortKey field b) (sortKey field a) = false) := by
  have h := List.sorted_mergeSort
    (userCmpLe_trans field dir) (userCmpLe_total field dir) l
  refine List.Pairwise.imp ?_ h
  intro a b hab
  rw [decide_eq_true_iff, userCmp_nonpos_asc hdir] at hab
  exact hab

theorem jsSortUsers_sorted_desc (field : String) (l : List User) :
    (jsSortUsers field "desc" l).Pairwise
      (fun a b => strLt (sortKey field a) (sortKey field b) = false) := by
  have h := List.sorted_mergeSort
    (userCmpLe_trans field "desc") (userCmpLe_total field "desc") l
  refine List.Pairwise.imp ?_ h
  intro a b hab
  rw [decide_eq_true_iff, userCmp_nonpos_desc] at hab
  exact hab

/-- Stability: the records whose sort key has any one fixed value
appear in the sorted output exactly as they appear in the input, in
the same relative order. -/
theorem jsSortUsers_stable (field dir : String) (l : List User) (k : String) :
    (jsSortUsers field dir l).filter (fun u => sortKey field u == k)
      = l.filter (fun u => sortKey field u == k) := by
  have hperm : ((jsSortUsers field dir l).filter (fun u => sortKey field u == k)).Perm
      (l.filter (fun u => sortKey field u == k)) :=
    (jsSortUsers_perm field dir l).filter _
  have hpair : (l.filter (fun u => sortKey field u == k)).Pairwise
      (fun a b => decide (userCmp field dir a b ≤ 0) = true) := by
    apply List.pairwise_of_forall_mem_list
    intro a ha b hb
    rw [List.mem_filter] at ha hb
    have hk : sortKey field a = sortKey field b := by
      have h1 := ha.2
      have h2 := hb.2
      rw [beq_iff_eq] at h1 h2
      rw [h1, h2]
    rw [decide_eq_true_iff, userCmp_zero_of_keys_eq field dir hk]
  have hsub : (l.filter (fun u => sortKey field u == k)).Sublist l :=
    List.filter_sublist l
  have hstab := List.sublist_mergeSort (userCmpLe_trans field dir)
    (userCmpLe_total field dir) hpair hsub
  have hstab2 : (l.filter (fun u => sortKey field u == k)).Sublist
      ((jsSortUsers field dir l).filter (fun u => sortKey field u == k)) := by
    have h1 := hstab.filter (fun u => sortKey field u == k)
    rwa [List.filter_filter, (by
      funext a
      rw [Bool.and_self] : (fun a : User => (sortKey field a == k) && (sortKey field a == k))
        = fun a : User => sortKey field a == k)] at h1
  exact (hstab2.eq_of_length hperm.length_eq.symm).symm

/-!  ## Case analyses for the mutating service calls  -/

theorem lowerEmails_append (a b : List User) :
    lowerEmails (a ++ b) = lowerEmails a ++ lowerEmails b := by
  simp [lowerEmails]

theorem mem_lowerEmails {store : List User} {x : String} :
    x ∈ lowerEmails store ↔ ∃ u ∈ store, jsToLower u.email = x := by
  simp [lowerEmails]

/-- Every create call either rejects a case-insensitive duplicate
email and leaves the store alone, or appends the new record. -/
theorem create_total_cases (store : List User) (p : CreatePayload) (newId now : String) :
    ((∃ u ∈ store, jsToLower u.email = jsToLower p.email)
       ∧ create store p newId now = .error .duplicateEmail
       ∧ applyOp store (.create p newId now) = store)
    ∨ ((∀ u ∈ store, ¬ jsToLower u.email = jsToLower p.email)
       ∧ create store p newId now = .ok (newRecord p newId now, store ++ [newRecord p newId now])
       ∧ applyOp store (.create p newId now) = store ++ [newRecord p newId now]) := by
  cases h : store.any (fun u => jsToLower u.email == jsToLower p.email) with
  | true =>
      left
      have hex : ∃ u ∈ store, jsToLower u.email = jsToLower p.email := by
        simpa using h
      have hc : create store p newId now = .error .duplicateEmail := by
        simp [create, h]
      exact ⟨hex, hc, by simp [applyOp, hc]⟩
  | false =>
      right
      have hall : ∀ u ∈ store, ¬ jsToLower u.email = jsToLower p.email := by
        simpa using h
      have hc : create store p newId now
          = .ok (newRecord p newId now, store ++ [newRecord p newId now]) := by
        simp [create, h]
      exact ⟨hall, hc, by simp [applyOp, hc]⟩

/-- Every update call is a miss (sentinel, store untouched), a
duplicate-email rejection (store untouched), or the in-place
replacement of the first matching record by its merge. -/
theorem update_total_cases (store : List User) (uid : String) (p : UpdatePayload)
    (now : String) :
    (update store uid p now = .ok none ∧ applyOp store (.update uid p now) = store
       ∧ ∀ u ∈ store, u.id ≠ uid)
    ∨ (update store uid p now = .error .duplicateEmail
       ∧ applyOp store (.update uid p now) = store
       ∧ dupCheck store uid p = true)
    ∨ (∃ pre old post, store = pre ++ old :: post ∧ old.id = uid
        ∧ (∀ y ∈ pre, y.id ≠ uid)
        ∧ dupCheck store uid p = false
        ∧ update store uid p now
            = .ok (some (mergeUser old p now, pre ++ mergeUser old p now :: post))
        ∧ applyOp store (.update uid p now) = pre ++ mergeUser old p now :: post) := by
  cases hf : store.find? (fun u => u.id == uid) with
  | none =>
      left
      have hu : update store uid p now = .ok none := by
        simp [update, hf]
      exact ⟨hu, by simp [applyOp, hu], find?_id_none.mp hf⟩
  | some old =>
      obtain ⟨pre, post, heq, hid, hpre⟩ := find?_id_decomp hf
      cases hd : dupCheck store uid p with
      | true =>
          right; left
          have hu : update store uid p now = .error .duplicateEmail := by
            simp [update, hf, hd]
          exact ⟨hu, by simp [applyOp, hu], rfl⟩
      | false =>
          right; right
          have hset : setFirst store uid (fun u => mergeUser u p now)
              = pre ++ mergeUser old p now :: post := by
            rw [heq]
            exact setFirst_decomp _ pre post hpre hid
          have hu : update store uid p now
              = .ok (some (mergeUser old p now, pre ++ mergeUser old p now :: post)) := by
            simp [update, hf, hd, hset]
          exact ⟨pre, old, post, heq, hid, hpre, rfl, hu, by simp [applyOp, hu]⟩

theorem applyOp_remove (store : List User) (uid : String) :
    applyOp store (.remove uid) = (remove store uid).2 := rfl

theorem applyOp_listq (store : List User) (opts : ListOptions) :
    applyOp store (.listq opts) = store := rfl

/-!  ## Step lemmas for the trace invariants  -/

theorem mergeUser_id (old : User) (p : UpdatePayload) (now : String) :
    (mergeUser old p now).id = old.id := rfl

theorem mergeUser_createdAt (old : User) (p : UpdatePayload) (now : String) :
    (mergeUser old p now).createdAt = old.createdAt := rfl

theorem ids_middle_eq {pre post : List User} (old : User) (p : UpdatePayload)
    (now : String) :
    ids (pre ++ mergeUser old p now :: post) = ids (pre ++ old :: post) := by
  simp [ids, mergeUser]

/-- One call preserves the id bookkeeping: every stored id is known,
and the stored ids are pairwise distinct. -/
theorem applyOp_ids_step {store : List User} {used : List String} {op : Op}
    (hv : validOp used op = true)
    (hsub : ∀ x ∈ ids store, x ∈ used)
    (hids : (ids store).Nodup) :
    (∀ x ∈ ids (applyOp store op), x ∈ usedAfter op used)
    ∧ (ids (applyOp store op)).Nodup := by
  cases op with
  | create p newId now =>
      simp only [validOp, Bool.not_eq_eq_eq_not, Bool.not_true] at hv
      have hnotin : newId ∉ used := by
        intro hmem
        rw [List.contains_eq_any_beq] at hv
        have : used.any (fun x => newId == x) = true :=
          List.any_eq_true.mpr ⟨newId, hmem, by simp⟩
        rw [this] at hv
        exact Bool.noConfusion hv
      simp only [usedAfter]
      rcases create_total_cases store p newId now with ⟨_, _, ha⟩ | ⟨_, _, ha⟩
      · rw [ha]
        exact ⟨fun x hx => List.mem_cons_of_mem _ (hsub x hx), hids⟩
      · rw [ha]
        have hfresh : newId ∉ ids store := fun hmem => hnotin (hsub newId hmem)
        constructor
        · intro x hx
          rw [ids_append] at hx
          rcases List.mem_append.mp hx with h1 | h1
          · exact List.mem_cons_of_mem _ (hsub x h1)
          · simp only [ids, newRecord, List.map_cons, List.map_nil,
              List.mem_singleton] at h1
            rw [h1]
            exact List.mem_cons_self _ _
        · rw [ids_append]
          have : (ids store ++ [newId]).Nodup := by
            rw [show ids store ++ [newId] = ids store ++ newId :: [] from rfl,
              List.nodup_middle, List.nodup_cons]
            simpa using ⟨hfresh, hids⟩
          simpa [ids, newRecord] using this
  | update uid p now =>
      simp only [usedAfter]
      rcases update_total_cases store uid p now with ⟨_, ha, _⟩ | ⟨_, ha, _⟩ |
        ⟨pre, old, post, heq, _, _, _, _, ha⟩
      · rw [ha]; exact ⟨hsub, hids⟩
      · rw [ha]; exact ⟨hsub, hids⟩
      · rw [ha, ids_middle_eq, ← heq]
        exact ⟨hsub, hids⟩
  | remove uid =>
      simp only [usedAfter]
      rw [applyOp_remove]
      have hsids : (ids (remove store uid).2).Sublist (ids store) :=
        (remove_sublist store uid).map _
      exact ⟨fun x hx => hsub x (hsids.subset hx), hids.sublist hsids⟩
  | listq opts =>
      simp only [usedAfter]
      rw [applyOp_listq]
      exact ⟨hsub, hids⟩

theorem uid_not_in_sides {pre post : List User} {old : User} {uid : String}
    (hids : (ids (pre ++ old :: post)).Nodup) (hid : old.id = uid) :
    uid ∉ ids (pre ++ post) := by
  have h1 : ids (pre ++ old :: post) = ids pre ++ old.id :: ids post := by
    simp [ids]
  rw [h1, List.nodup_middle, List.nodup_cons] at hids
  rw [hid] at hids
  have h2 : ids (pre ++ post) = ids pre ++ ids post := ids_append pre post
  rw [h2]
  exact hids.1

/-- One call preserves the case-insensitive email uniqueness
invariant. -/
theorem applyOp_emails_step {store : List User} {used : List String} {op : Op}
    (hv : validOp used op = true)
    (hids : (ids store).Nodup)
    (hem : (lowerEmails store).Nodup) :
    (lowerEmails (applyOp store op)).Nodup := by
  cases op with
  | create p newId now =>
      rcases create_total_cases store p newId now with ⟨_, _, ha⟩ | ⟨hall, _, ha⟩
      · rw [ha]; exact hem
      · rw [ha, lowerEmails_append]
        have hnew : jsToLower p.email ∉ lowerEmails store := by
          intro hmem
          obtain ⟨u, hu, hx⟩ := mem_lowerEmails.mp hmem
          exact hall u hu hx
        have : (lowerEmails store ++ jsToLower p.email :: []).Nodup := by
          rw [List.nodup_middle, List.nodup_cons]
          simpa using ⟨hnew, hem⟩
        simpa [lowerEmails, newRecord] using this
  | update uid p now =>
      rcases update_total_cases store uid p now with ⟨_, ha, _⟩ | ⟨_, ha, _⟩ |
        ⟨pre, old, post, heq, hid, _, hd, _, ha⟩
      · rw [ha]; exact hem
      · rw [ha]; exact hem
      · rw [ha]
        cases hpe : p.email with
        | none =>
            have hsame : (mergeUser old p now).email = old.email := by
              simp [mergeUser, hpe]
            have : lowerEmails (pre ++ mergeUser old p now :: post)
                = lowerEmails (pre ++ old :: post) := by
              simp [lowerEmails, hsame]
            rw [this, ← heq]
            exact hem
        | some e =>
            simp only [validOp, hpe, bne_iff_ne, ne_eq, Option.some.injEq] at hv
            simp only [dupCheck, hpe] at hd
            have hne : (e != "") = true := by
              simpa using hv
            rw [hne, Bool.true_and] at hd
            have hany : ∀ u ∈ store, jsToLower u.email = jsToLower e → u.id = uid := by
              intro u hu hx
              have := List.any_eq_false.mp hd u hu
              simp only [Bool.and_eq_true, beq_iff_eq, bne_iff_ne, ne_eq,
                not_and, not_not] at this
              exact this hx
            have hmerged : (mergeUser old p now).email = e := by
              simp [mergeUser, hpe]
            have hgoal1 : lowerEmails (pre ++ mergeUser old p now :: post)
                = lowerEmails pre ++ jsToLower e :: lowerEmails post := by
              simp [lowerEmails, hmerged]
            have hem2 : (lowerEmails pre ++ jsToLower old.email :: lowerEmails post).Nodup := by
              have : lowerEmails (pre ++ old :: post)
                  = lowerEmails pre ++ jsToLower old.email :: lowerEmails post := by
                simp [lowerEmails]
              rw [← this, ← heq]
              exact hem
            rw [hgoal1, List.nodup_middle, List.nodup_cons]
            rw [List.nodup_middle, List.nodup_cons] at hem2
            refine ⟨?_, hem2.2⟩
            intro hmem
            have hm2 : jsToLower e ∈ lowerEmails (pre ++ post) := by
              rw [lowerEmails_append]
              simpa [lowerEmails] using hmem
            obtain ⟨u, hu, hx⟩ := mem_lowerEmails.mp hm2
            have humem : u ∈ store := by
              rw [heq]
              rcases List.mem_append.mp hu with h1 | h1
              · exact List.mem_append.mpr (Or.inl h1)
              · exact List.mem_append.mpr (Or.inr (List.mem_cons_of_mem _ h1))
            have huid : u.id = uid := hany u humem hx
            have : uid ∉ ids (pre ++ post) :=
              uid_not_in_sides (heq ▸ hids) hid
            exact this (by
              rw [← huid]
              exact List.mem_map_of_mem _ hu)
  | remove uid =>
      rw [applyOp_remove]
      exact hem.sublist ((remove_sublist store uid).map _)
  | listq opts =>
      rw [applyOp_listq]
      exact hem

/-- One call preserves the updatedAt bookkeeping: a record carries an
updatedAt stamp exactly when its id has been successfully updated. -/
theorem applyOp_upd_step {store : List User} {used upd : List String} {op : Op}
    (hv : validOp used op = true)
    (hsub : ∀ x ∈ ids store, x ∈ used)
    (hids : (ids store).Nodup)
    (hupdsub : ∀ x ∈ upd, x ∈ used)
    (hupd : ∀ u ∈ store, (u.updatedAt.isSome = true ↔ u.id ∈ upd)) :
    (∀ x ∈ updAfter store upd op, x ∈ usedAfter op used)
    ∧ (∀ u ∈ applyOp store op, (u.updatedAt.isSome = true ↔ u.id ∈ updAfter store upd op)) := by
  cases op with
  | create p newId now =>
      simp only [validOp, Bool.not_eq_eq_eq_not, Bool.not_true] at hv
      have hnotin : newId ∉ used := by
        intro hmem
        rw [List.contains_eq_any_beq] at hv
        have : used.any (fun x => newId == x) = true :=
          List.any_eq_true.mpr ⟨newId, hmem, by simp⟩
        rw [this] at hv
        exact Bool.noConfusion hv
      simp only [updAfter, usedAfter]
      refine ⟨fun x hx => List.mem_cons_of_mem _ (hupdsub x hx), ?_⟩
      rcases create_total_cases store p newId now with ⟨_, _, ha⟩ | ⟨_, _, ha⟩
      · rw [ha]; exact hupd
      · rw [ha]
        intro u hu
        rcases List.mem_append.mp hu with h1 | h1
        · exact hupd u h1
        · rw [List.mem_singleton] at h1
          subst h1
          constructor
          · intro h
            exact absurd h (by simp [newRecord])
          · intro h
            exact absurd (hupdsub _ h) (by simpa [newRecord] using hnotin)
  | update uid p now =>
      simp only [usedAfter]
      rcases update_total_cases store uid p now with ⟨hu, ha, _⟩ | ⟨hu, ha, _⟩ |
        ⟨pre, old, post, heq, hid, hpre, _, hu, ha⟩
      · simp only [updAfter, hu]
        rw [ha]
        exact ⟨hupdsub, hupd⟩
      · simp only [updAfter, hu]
        rw [ha]
        exact ⟨hupdsub, hupd⟩
      · simp only [updAfter, hu]
        rw [ha]
        have huidused : uid ∈ used := by
          apply hsub
          rw [heq, ← hid]
          simp [ids]
        constructor
        · intro x hx
          rcases List.mem_cons.mp hx with h1 | h1
          · rw [h1]; exact huidused
          · exact hupdsub x h1
        · intro u hu2
          have hnot : uid ∉ ids (pre ++ post) := uid_not_in_sides (heq ▸ hids) hid
          rcases List.mem_append.mp hu2 with h1 | h1
          · have humem : u ∈ store := by
              rw [heq]; exact List.mem_append.mpr (Or.inl h1)
            have hne : u.id ≠ uid := hpre u h1
            rw [hupd u humem]
            constructor
            · intro h; exact List.mem_cons_of_mem _ h
            · intro h
              rcases List.mem_cons.mp h with h2 | h2
              · exact absurd h2 hne
              · exact h2
          · rcases List.mem_cons.mp h1 with h2 | h2
            · subst h2
              constructor
              · intro _
                rw [mergeUser_id, hid]
                exact List.mem_cons_self _ _
              · intro _
                simp [mergeUser]
            · have humem : u ∈ store := by
                rw [heq]
                exact List.mem_append.mpr (Or.inr (List.mem_cons_of_mem _ h2))
              have hne : u.id ≠ uid := by
                intro hbad
                apply hnot
                rw [← hbad]
                apply List.mem_map_of_mem
                exact List.mem_append.mpr (Or.inr h2)
              rw [hupd u humem]
              constructor
              · intro h; exact List.mem_cons_of_mem _ h
              · intro h
                rcases List.mem_cons.mp h with h3 | h3
                · exact absurd h3 hne
                · exact h3
  | remove uid =>
      simp only [updAfter, usedAfter]
      rw [applyOp_remove]
      exact ⟨hupdsub, fun u hu =>
        hupd u ((remove_sublist store uid).subset hu)⟩
  | listq opts =>
      simp only [updAfter, usedAfter]
      rw [applyOp_listq]
      exact ⟨hupdsub, hupd⟩

/-- Any record in the final store whose id was already known at some
earlier point of the trace existed at that point, with the same
createdAt stamp. -/
theorem run_traceback : ∀ (ops : List Op) (store : List User) (used : List String),
    validOps used ops = true →
    ∀ v ∈ runOps store ops, v.id ∈ used →
    ∃ w ∈ store, w.id = v.id ∧ w.createdAt = v.createdAt
  | [], store, used, _, v, hv, _ => ⟨v, hv, rfl, rfl⟩
  | op :: rest, store, used, hvops, v, hv, hid => by
      rw [validOps, Bool.and_eq_true] at hvops
      obtain ⟨hv1, hv2⟩ := hvops
      have hidafter : v.id ∈ usedAfter op used := by
        cases op with
        | create p newId now => exact List.mem_cons_of_mem _ hid
        | update uid p now => exact hid
        | remove uid => exact hid
        | listq opts => exact hid
      obtain ⟨w2, hw2mem, hw2id, hw2c⟩ :=
        run_traceback rest (applyOp store op) (usedAfter op used) hv2 v
          (by simpa [runOps] using hv) hidafter
      cases op with
      | create p newId now =>
          simp only [validOp, Bool.not_eq_eq_eq_not, Bool.not_true] at hv1
          have hnotin : newId ∉ used := by
            intro hmem
            rw [List.contains_eq_any_beq] at hv1
            have : used.any (fun x => newId == x) = true :=
              List.any_eq_true.mpr ⟨newId, hmem, by simp⟩
            rw [this] at hv1
            exact Bool.noConfusion hv1
          rcases create_total_cases store p newId now with ⟨_, _, ha⟩ | ⟨_, _, ha⟩
          · rw [ha] at hw2mem
            exact ⟨w2, hw2mem, hw2id, hw2c⟩
          · rw [ha] at hw2mem
            rcases List.mem_append.mp hw2mem with h1 | h1
            · exact ⟨w2, h1, hw2id, hw2c⟩
            · rw [List.mem_singleton] at h1
              exfalso
              apply hnotin
              have : w2.id = newId := by rw [h1]; rfl
              rw [← hw2id] at hid
              rw [this] at hid
              exact hid
      | update uid p now =>
          rcases update_total_cases store uid p now with ⟨_, ha, _⟩ | ⟨_, ha, _⟩ |
            ⟨pre, old, post, heq, _, _, _, _, ha⟩
          · rw [ha] at hw2mem; exact ⟨w2, hw2mem, hw2id, hw2c⟩
          · rw [ha] at hw2mem; exact ⟨w2, hw2mem, hw2id, hw2c⟩
          · rw [ha] at hw2mem
            rcases List.mem_append.mp hw2mem with h1 | h1
            · exact ⟨w2, by rw [heq]; exact List.mem_append.mpr (Or.inl h1), hw2id, hw2c⟩
            · rcases List.mem_cons.mp h1 with h2 | h2
              · refine ⟨old, by rw [heq]; simp, ?_, ?_⟩
                · rw [← hw2id, h2, mergeUser_id]
                · rw [← hw2c, h2, mergeUser_createdAt]
              · exact ⟨w2, by
                  rw [heq]
                  exact List.mem_append.mpr (Or.inr (List.mem_cons_of_mem _ h2)),
                  hw2id, hw2c⟩
      | remove uid =>
          rw [applyOp_remove] at hw2mem
          exact ⟨w2, (remove_sublist store uid).subset hw2mem, hw2id, hw2c⟩
      | listq opts =>
          rw [applyOp_listq] at hw2mem
          exact ⟨w2, hw2mem, hw2id, hw2c⟩

/-- The instrumented run computes the same final store as the plain
run. -/
theorem runTr_fst : ∀ (ops : List Op) (store : List User) (upd : List String),
    (runTr (store, upd) ops).1 = runOps store ops
  | [], _, _ => rfl
  | op :: rest, store, upd => by
      rw [runOps, show runTr (store, upd) (op :: rest)
        = runTr (applyOp store op, updAfter store upd op) rest from rfl]
      exact runTr_fst rest (applyOp store op) (updAfter store upd op)

/-- The id and email uniqueness invariants hold after any valid
trace. -/
theorem runOps_nodup : ∀ (ops : List Op) (store : List User) (used : List String),
    (∀ x ∈ ids store, x ∈ used) →
    (ids store).Nodup →
    (lowerEmails store).Nodup →
    validOps used ops = true →
    ((ids (runOps store ops)).Nodup ∧ (lowerEmails (runOps store ops)).Nodup)
  | [], store, used, _, hids, hem, _ => ⟨hids, hem⟩
  | op :: rest, store, used, hsub, hids, hem, hvops => by
      rw [validOps, Bool.and_eq_true] at hvops
      obtain ⟨hv1, hv2⟩ := hvops
      obtain ⟨hsub2, hids2⟩ := applyOp_ids_step hv1 hsub hids
      have hem2 := applyOp_emails_step hv1 hids hem
      rw [runOps]
      exact runOps_nodup rest (applyOp store op) (usedAfter op used) hsub2 hids2 hem2 hv2

/-- The updatedAt bookkeeping holds after any valid trace. -/
theorem runTr_upd : ∀ (ops : List Op) (store : List User) (upd used : List String),
    (∀ x ∈ ids store, x ∈ used) →
    (ids store).Nodup →
    (∀ x ∈ upd, x ∈ used) →
    (∀ u ∈ store, (u.updatedAt.isSome = true ↔ u.id ∈ upd)) →
    validOps used ops = true →
    ∀ u ∈ (runTr (store, upd) ops).1,
      (u.updatedAt.isSome = true ↔ u.id ∈ (runTr (store, upd) ops).2)
  | [], store, upd, used, _, _, _, hupd, _ => hupd
  | op :: rest, store, upd, used, hsub, hids, hupdsub, hupd, hvops => by
      rw [validOps, Bool.and_eq_true] at hvops
      obtain ⟨hv1, hv2⟩ := hvops
      obtain ⟨hsub2, hids2⟩ := applyOp_ids_step hv1 hsub hids
      obtain ⟨hupdsub2, hupd2⟩ := applyOp_upd_step hv1 hsub hids hupdsub hupd
      rw [show runTr (store, upd) (op :: rest)
        = runTr (applyOp store op, updAfter store upd op) rest from rfl]
      exact runTr_upd rest (applyOp store op) (updAfter store upd op)
        (usedAfter op used) hsub2 hids2 hupdsub2 hupd2 hv2

/-!  ## Remaining small lemmas used by the claim theorems  -/

theorem find?_id_of_decomp {uid : String} {old : User} :
    ∀ (pre post : List User), (∀ y ∈ pre, y.id ≠ uid) → old.id = uid →
    (pre ++ old :: post).find? (fun u => u.id == uid) = some old
  | [], post, _, hid => by
      rw [List.nil_append]
      exact List.find?_cons_of_pos _ (by simpa using hid)
  | u :: pre, post, hpre, hid => by
      have hu : ¬ ((fun v : User => v.id == uid) u) = true := by
        simpa using hpre u (List.mem_cons_self u pre)
      rw [List.cons_append, @List.find?_cons_of_neg User (fun v => v.id == uid) u _ hu]
      exact find?_id_of_decomp pre post (fun y hy => hpre y (List.mem_cons_of_mem u hy)) hid

theorem effLimit_bounds (q : QParam) : 1 ≤ effLimit q ∧ effLimit q ≤ 100 := by
  cases q with
  | absent => decide
  | nan => decide
  | num n =>
      simp only [effLimit]
      split_ifs <;> omega

theorem effOffset_nonneg (q : QParam) : 0 ≤ effOffset q := by
  cases q with
  | absent => decide
  | nan => decide
  | num n =>
      simp only [effOffset]
      split_ifs <;> omega

theorem roleStep_sublist (role : Option String) (store : List User) :
    (roleStep role store).Sublist store := by
  cases role with
  | none => exact List.Sublist.refl store
  | some r => exact List.filter_sublist store

/-!  ## Claim theorems  -/

/-- C1: the spec and the controller require the read operation to
produce both the page items and the pre-pagination total
(querySpec below reproduces the spec numbers on the seeded store),
but the service list returns only the bare page array: at the claimed
pagination-boundary inputs it evaluates to the slice [3rd record] and
[] respectively, carrying no total component at all, so the
controller's destructuring of items and total from it cannot see
either value. -/
theorem C1_list_bare_page :
    querySpec seedUsers { limit := 2, offset := 2 } = ([mayaUser], 3)
    ∧ querySpec seedUsers { limit := 2, offset := 10 } = ([], 3)
    ∧ list seedUsers { limit := 2, offset := 2 } = [mayaUser]
    ∧ list seedUsers { limit := 2, offset := 10 } = [] := by decide

/-- C2 counterexample: the claim says an out-of-range limit is clamped
into [1, 100], so limit 0 would become 1; the controller instead
resets it to the default 10. -/
theorem C2_clamp_counterexample :
    effLimit (QParam.num 0) = 10 ∧ max 1 (min 100 (0 : Int)) = 1
    ∧ ¬ effLimit (QParam.num 0) = max 1 (min 100 (0 : Int)) := by decide

/-- C2 (amended): on the read path the effective limit defaults to 10
when absent or non-numeric, values below 1 reset to the default 10
(not to the clamp value 1), values above 100 cap at 100, and in-range
values pass through, so the effective limit always lies in [1, 100];
the effective offset defaults to 0 and negative or non-numeric values
reset to 0; the sanitized limit and offset are applied after filtering
and sorting, selecting the contiguous slice [offset, offset+limit). -/
theorem C2_read_params (lq oq : QParam) (store : List User) (role sort : Option String) :
    (1 ≤ effLimit lq ∧ effLimit lq ≤ 100)
    ∧ effLimit QParam.absent = 10
    ∧ effLimit QParam.nan = 10
    ∧ effOffset QParam.absent = 0
    ∧ effOffset QParam.nan = 0
    ∧ (∀ n : Int, lq = QParam.num n → n < 1 → effLimit lq = 10)
    ∧ (∀ n : Int, lq = QParam.num n → 100 < n → effLimit lq = 100)
    ∧ (∀ n : Int, lq = QParam.num n → 1 ≤ n → n ≤ 100 → effLimit lq = n)
    ∧ (0 ≤ effOffset oq)
    ∧ (∀ n : Int, oq = QParam.num n → n < 0 → effOffset oq = 0)
    ∧ (∀ n : Int, oq = QParam.num n → 0 ≤ n → effOffset oq = n)
    ∧ controllerList store lq oq role sort
        = ((sortStep (normParam sort) (roleStep (normParam role) store)).drop
            (effOffset oq).toNat).take (effLimit lq).toNat := by
  refine ⟨effLimit_bounds lq, rfl, rfl, rfl, rfl, ?_, ?_, ?_, effOffset_nonneg oq, ?_, ?_, rfl⟩
  · intro n h hn
    subst h
    simp only [effLimit]
    split_ifs <;> omega
  · intro n h hn
    subst h
    simp only [effLimit]
    split_ifs <;> omega
  · intro n h h1 h2
    subst h
    simp only [effLimit]
    split_ifs <;> omega
  · intro n h hn
    subst h
    simp only [effOffset]
    split_ifs <;> omega
  · intro n h hn
    subst h
    simp only [effOffset]
    split_ifs <;> omega

theorem C2_read_params_witness :
    effLimit (QParam.num 150) = 100 ∧ effOffset (QParam.num (-7)) = 0 := by
  have h := C2_read_params (QParam.num 150) (QParam.num (-7)) seedUsers none none
  exact ⟨h.2.2.2.2.2.2.1 150 rfl (by norm_num),
    h.2.2.2.2.2.2.2.2.2.1 (-7) rfl (by norm_num)⟩

/-- C3: starting from any store satisfying the uniqueness invariants
(the seeded store does), any sequence of service calls whose payloads
passed the validation gate and whose generated ids are fresh leaves no
two stored records with case-insensitively equal emails. -/
theorem C3_email_uniqueness (ops : List Op) (store : List User) (used : List String)
    (hsub : ∀ x ∈ ids store, x ∈ used)
    (hids : (ids store).Nodup)
    (hem : (lowerEmails store).Nodup)
    (hv : validOps used ops = true) :
    (lowerEmails (runOps store ops)).Nodup :=
  (runOps_nodup ops store used hsub hids hem hv).2

theorem C3_email_uniqueness_witness :
    (lowerEmails (runOps seedUsers
      [Op.create { name := "Alex Johnson", email := "alex@example.com" } "id4" "t1",
       Op.update "id4" { email := some "alex2@example.com" } "t2",
       Op.create { name := "Maya Two", email := "MAYA@example.com" } "id5" "t3"])).Nodup :=
  C3_email_uniqueness _ seedUsers (ids seedUsers) (by decide) (by decide) (by decide)
    (by decide)

/-- C4: create fails with the duplicate-email error exactly when some
existing record matches the payload email case-insensitively, and then
the store is unchanged; on success it appends the returned record,
which carries the generated id, the stamped createdAt, no updatedAt,
the payload name and email, the role student when the role was
omitted, and id uniqueness is preserved when the generated id is
fresh. -/
theorem C4_create_spec (store : List User) (p : CreatePayload) (newId now : String) :
    ((∃ u ∈ store, jsToLower u.email = jsToLower p.email) →
        (create store p newId now = .error .duplicateEmail
         ∧ applyOp store (.create p newId now) = store))
    ∧ ((∀ u ∈ store, ¬ jsToLower u.email = jsToLower p.email) →
        (create store p newId now
            = .ok (newRecord p newId now, store ++ [newRecord p newId now])
         ∧ (newRecord p newId now).id = newId
         ∧ (newRecord p newId now).createdAt = now
         ∧ (newRecord p newId now).updatedAt = none
         ∧ (newRecord p newId now).name = p.name
         ∧ (newRecord p newId now).email = p.email
         ∧ (p.role = none → (newRecord p newId now).role = "student")
         ∧ (newId ∉ ids store → (ids store).Nodup →
              (ids (store ++ [newRecord p newId now])).Nodup))) := by
  constructor
  · intro hex
    rcases create_total_cases store p newId now with ⟨_, hc, ha⟩ | ⟨hall, _, _⟩
    · exact ⟨hc, ha⟩
    · obtain ⟨u, hu, he⟩ := hex
      exact absurd he (hall u hu)
  · intro hall
    rcases create_total_cases store p newId now with ⟨⟨u, hu, he⟩, _, _⟩ | ⟨_, hc, _⟩
    · exact absurd he (hall u hu)
    · refine ⟨hc, rfl, rfl, rfl, rfl, rfl, ?_, ?_⟩
      · intro hr
        simp [newRecord, strOr, hr]
      · intro hfresh hids
        rw [ids_append]
        have h2 : (ids store ++ newId :: []).Nodup := by
          rw [List.nodup_middle, List.nodup_cons]
          simpa using ⟨hfresh, hids⟩
        simpa [ids, newRecord] using h2

theorem C4_create_spec_witness :
    create seedUsers { name := "Al", email := "ASHA@example.com" } "id9" "t"
      = .error .duplicateEmail
    ∧ create seedUsers { name := "Al", email := "al@example.com" } "id9" "t"
        = .ok (newRecord { name := "Al", email := "al@example.com" } "id9" "t",
            seedUsers ++ [newRecord { name := "Al", email := "al@example.com" } "id9" "t"]) := by
  constructor
  · exact ((C4_create_spec seedUsers { name := "Al", email := "ASHA@example.com" }
      "id9" "t").1 (by decide)).1
  · exact ((C4_create_spec seedUsers { name := "Al", email := "al@example.com" }
      "id9" "t").2 (by decide)).1

/-- C5: the sort step sorts only on the fields name and createdAt; any
other field (and the absence of a sort option) leaves the order
untouched rather than erroring; for a recognized field the output is a
permutation of the input that is nondecreasing in the key for any
non-desc direction and nonincreasing for desc, and it is stable: the
records tied on any one key value keep their original relative order
in both directions. -/
theorem C5_sort_contract (l : List User) (s field dir : String)
    (hs : splitColon s = (field, dir)) :
    (sortStep none l = l)
    ∧ (¬ (field = "name" ∨ field = "createdAt") → sortStep (some s) l = l)
    ∧ ((field = "name" ∨ field = "createdAt") →
        ((sortStep (some s) l).Perm l
         ∧ (¬ dir = "desc" → (sortStep (some s) l).Pairwise
              (fun a b => strLt (sortKey field b) (sortKey field a) = false))
         ∧ (dir = "desc" → (sortStep (some s) l).Pairwise
              (fun a b => strLt (sortKey field a) (sortKey field b) = false))
         ∧ (∀ k : String, (sortStep (some s) l).filter (fun u => sortKey field u == k)
              = l.filter (fun u => sortKey field u == k)))) := by
  refine ⟨rfl, fun hf => sortStep_invalid l s field dir hs hf, fun hf => ?_⟩
  rw [sortStep_eq_jsSortUsers l s field dir hs hf]
  refine ⟨jsSortUsers_perm field dir l, ?_, ?_, jsSortUsers_stable field dir l⟩
  · intro hdir
    exact jsSortUsers_sorted_asc field hdir l
  · intro hdir
    subst hdir
    exact jsSortUsers_sorted_desc field l

theorem C5_sort_contract_witness :
    sortStep (some "email:asc") seedUsers = seedUsers
    ∧ (sortStep (some "name:asc") seedUsers).Perm seedUsers := by
  constructor
  · exact (C5_sort_contract seedUsers "email:asc" "email" "asc" (by decide)).2.1 (by decide)
  · exact ((C5_sort_contract seedUsers "name:asc" "name" "asc" (by decide)).2.2
      (Or.inl rfl)).1

/-- C6: an update whose payload contains only a name changes exactly
the name and the updatedAt stamp of the first record with the given
id; email, role, id and createdAt are untouched.  When no record has
the id, update returns the not-found sentinel and the store is
unchanged. -/
theorem C6_update_name_only (store : List User) (uid x now : String) :
    ((∀ u ∈ store, u.id ≠ uid) →
        (update store uid { name := some x } now = .ok none
         ∧ applyOp store (.update uid { name := some x } now) = store))
    ∧ (∀ pre old post, store = pre ++ old :: post → old.id = uid →
        (∀ y ∈ pre, y.id ≠ uid) →
        (update store uid { name := some x } now
            = .ok (some (mergeUser old { name := some x } now,
                pre ++ mergeUser old { name := some x } now :: post))
         ∧ (mergeUser old { name := some x } now).name = x
         ∧ (mergeUser old { name := some x } now).updatedAt = some now
         ∧ (mergeUser old { name := some x } now).email = old.email
         ∧ (mergeUser old { name := some x } now).role = old.role
         ∧ (mergeUser old { name := some x } now).id = old.id
         ∧ (mergeUser old { name := some x } now).createdAt = old.createdAt)) := by
  constructor
  · intro hall
    have hf : store.find? (fun u => u.id == uid) = none := find?_id_none.mpr hall
    have hu : update store uid { name := some x } now = .ok none := by
      simp [update, hf]
    exact ⟨hu, by simp [applyOp, hu]⟩
  · intro pre old post heq hid hpre
    have hf : store.find? (fun u => u.id == uid) = some old := by
      rw [heq]
      exact find?_id_of_decomp pre post hpre hid
    have hd : dupCheck store uid { name := some x } = false := rfl
    have hset : setFirst store uid (fun u => mergeUser u { name := some x } now)
        = pre ++ mergeUser old { name := some x } now :: post := by
      rw [heq]
      exact setFirst_decomp _ pre post hpre hid
    refine ⟨?_, rfl, rfl, rfl, rfl, rfl, rfl⟩
    simp [update, hf, hd, hset]

theorem C6_update_name_only_witness :
    update seedUsers raviUser.id { name := some "Xavier" } "t"
      = .ok (some (mergeUser raviUser { name := some "Xavier" } "t",
          [ashaUser] ++ mergeUser raviUser { name := some "Xavier" } "t" :: [mayaUser]))
    ∧ update seedUsers "no-such-id" { name := some "X" } "t" = .ok none := by
  constructor
  · exact ((C6_update_name_only seedUsers raviUser.id "Xavier" "t").2
      [ashaUser] raviUser [mayaUser] (by decide) (by decide) (by decide)).1
  · exact ((C6_update_name_only seedUsers "no-such-id" "X" "t").1 (by decide)).1

/-- C7: over any valid trace from a store with distinct ids whose
updatedAt stamps match the update record so far, a record read back by
id has that id, its createdAt equals the createdAt it had at the start
of the trace if it existed then, and it carries an updatedAt stamp
exactly when its id was successfully updated during the trace. -/
theorem C7_timestamps (ops : List Op) (store : List User) (upd used : List String)
    (hsub : ∀ x ∈ ids store, x ∈ used)
    (hids : (ids store).Nodup)
    (hupdsub : ∀ x ∈ upd, x ∈ used)
    (hupd : ∀ u ∈ store, (u.updatedAt.isSome = true ↔ u.id ∈ upd))
    (hv : validOps used ops = true) :
    (∀ u ∈ (runTr (store, upd) ops).1,
        (u.updatedAt.isSome = true ↔ u.id ∈ (runTr (store, upd) ops).2))
    ∧ (∀ v ∈ (runTr (store, upd) ops).1, ∀ u ∈ store, v.id = u.id →
        v.createdAt = u.createdAt)
    ∧ (∀ (x : String) (v u : User),
        getById (runTr (store, upd) ops).1 x = some v → getById store x = some u →
        (v.id = x ∧ v.createdAt = u.createdAt)) := by
  have hfst : (runTr (store, upd) ops).1 = runOps store ops := runTr_fst ops store upd
  have hcreated : ∀ v ∈ (runTr (store, upd) ops).1, ∀ u ∈ store, v.id = u.id →
      v.createdAt = u.createdAt := by
    intro v hv2 u hu hvu
    rw [hfst] at hv2
    have hidused : v.id ∈ used := by
      rw [hvu]
      exact hsub u.id (List.mem_map_of_mem _ hu)
    obtain ⟨w, hwmem, hwid, hwc⟩ := run_traceback ops store used hv v hv2 hidused
    have hids2 : (store.map (fun z => z.id)).Nodup := hids
    have hinj := List.inj_on_of_nodup_map hids2
    have hwu : w = u := hinj hwmem hu (by rw [hwid, hvu])
    rw [← hwc, hwu]
  refine ⟨runTr_upd ops store upd used hsub hids hupdsub hupd hv, hcreated, ?_⟩
  intro x v u hfind1 hfind2
  have hvx : v.id = x := by
    have := List.find?_some hfind1
    simpa using this
  have hux : u ∈ store := List.mem_of_find?_eq_some hfind2
  have hvmem : v ∈ (runTr (store, upd) ops).1 := List.mem_of_find?_eq_some hfind1
  have huid : u.id = x := by
    have := List.find?_some hfind2
    simpa using this
  exact ⟨hvx, hcreated v hvmem u hux (by rw [hvx, huid])⟩

theorem C7_timestamps_witness :
    (mergeUser ashaUser { name := some "Asha R" } "t2").id = ashaUser.id
    ∧ (mergeUser ashaUser { name := some "Asha R" } "t2").createdAt
        = ashaUser.createdAt := by
  have h := C7_timestamps [Op.update ashaUser.id { name := some "Asha R" } "t2"]
    seedUsers [] (ids seedUsers) (by decide) (by decide) (by decide) (by decide) (by decide)
  exact h.2.2 ashaUser.id (mergeUser ashaUser { name := some "Asha R" } "t2") ashaUser
    (by decide) (by decide)

/-- C8: remove reports true exactly when a record with the id is
present (and never errors: it totally returns a boolean); on a miss
the store is untouched; the result is always an in-order sublist of
the store; and in a store with distinct ids a second remove of the
same id reports false. -/
theorem C8_remove_spec (store : List User) (uid : String)
    (hids : (ids store).Nodup) :
    ((remove store uid).1 = true ↔ ∃ u ∈ store, u.id = uid)
    ∧ ((remove store uid).1 = false → (remove store uid).2 = store)
    ∧ ((remove store uid).2.Sublist store)
    ∧ (remove (remove store uid).2 uid).1 = false := by
  rcases remove_total_cases store uid with ⟨hr, hall⟩ | ⟨pre, w, post, heq, hid, _, hr⟩
  · rw [hr]
    refine ⟨?_, fun _ => rfl, List.Sublist.refl store, ?_⟩
    · simp only [Bool.false_eq_true, false_iff]
      intro hex
      obtain ⟨u, hu, he⟩ := hex
      exact hall u hu he
    · rw [hr]
  · rw [hr]
    have hnot : uid ∉ ids (pre ++ post) := uid_not_in_sides (heq ▸ hids) hid
    have hall2 : ∀ u ∈ pre ++ post, u.id ≠ uid := by
      intro u hu hbad
      exact hnot (hbad ▸ List.mem_map_of_mem _ hu)
    refine ⟨?_, ?_, ?_, ?_⟩
    · simp only [true_iff]
      exact ⟨w, by rw [heq]; simp, hid⟩
    · intro hbad
      exact Bool.noConfusion hbad
    · rw [heq]
      exact (List.sublist_cons_self w post).append_left pre
    · rw [remove_of_none hall2]

theorem C8_remove_spec_witness :
    (remove seedUsers ashaUser.id).1 = true
    ∧ (remove (remove seedUsers ashaUser.id).2 ashaUser.id).1 = false := by
  have h := C8_remove_spec seedUsers ashaUser.id (by decide)
  exact ⟨h.1.mpr ⟨ashaUser, by decide, rfl⟩, h.2.2.2⟩

/-- C9: without a sort option the read operation returns the
role-filtered records in store order (a slice of an in-order sublist
of the store); and no mutation reorders the store: create appends at
the end, remove excises in place leaving an in-order sublist, and a
successful update replaces the first matching record at its existing
position. -/
theorem C9_iteration_order (store : List User) (opts : ListOptions) (p : CreatePayload)
    (newId now uid : String) (up : UpdatePayload) :
    (opts.sort = none →
        (list store opts = ((roleStep opts.role store).drop opts.offset).take opts.limit
         ∧ (list store opts).Sublist store))
    ∧ (∀ r s2, create store p newId now = .ok (r, s2) → s2 = store ++ [r])
    ∧ ((remove store uid).2.Sublist store)
    ∧ (∀ r s2, update store uid up now = .ok (some (r, s2)) →
        ∃ pre old post, store = pre ++ old :: post ∧ s2 = pre ++ r :: post
          ∧ r = mergeUser old up now) := by
  refine ⟨?_, ?_, remove_sublist store uid, ?_⟩
  · intro hsort
    have heq : list store opts
        = ((roleStep opts.role store).drop opts.offset).take opts.limit := by
      simp [list, hsort, sortStep]
    refine ⟨heq, ?_⟩
    rw [heq]
    exact (List.take_sublist _ _).trans
      ((List.drop_sublist _ _).trans (roleStep_sublist opts.role store))
  · intro r s2 h
    rcases create_total_cases store p newId now with ⟨_, hc, _⟩ | ⟨_, hc, _⟩
    · rw [hc] at h
      exact Except.noConfusion h
    · rw [hc] at h
      injection h with h2
      injection h2 with h3 h4
      rw [← h4, h3]
  · intro r s2 h
    rcases update_total_cases store uid up now with ⟨hu, _, _⟩ | ⟨hu, _, _⟩ |
      ⟨pre, old, post, heq, _, _, _, hu, _⟩
    · rw [hu] at h
      injection h with h2
      exact Option.noConfusion h2
    · rw [hu] at h
      exact Except.noConfusion h
    · rw [hu] at h
      injection h with h2
      injection h2 with h3
      injection h3 with h4 h5
      exact ⟨pre, old, post, heq, by rw [← h5, ← h4], h4.symm⟩

theorem C9_iteration_order_witness :
    list seedUsers { limit := 2, offset := 1, role := some "student", sort := none }
      = ((roleStep (some "student") seedUsers).drop 1).take 2
    ∧ (list seedUsers { limit := 2, offset := 1, role := some "student", sort := none
        }).Sublist seedUsers :=
  (C9_iteration_order seedUsers
    { limit := 2, offset := 1, role := some "student", sort := none }
    { name := "A", email := "a" } "i" "t" "u" {}).1 rfl

/-- C10: the list operation never mutates the store: it operates on a
copy, so the store after a list call is the store before it, any read
after it observes the same records, and deleting a list call from any
trace does not change the final store. -/
theorem C10_list_pure (store : List User) (opts : ListOptions) (ops1 ops2 : List Op) :
    applyOp store (.listq opts) = store
    ∧ (∀ x : String, getById (applyOp store (.listq opts)) x = getById store x)
    ∧ runOps store (ops1 ++ Op.listq opts :: ops2) = runOps store (ops1 ++ ops2) := by
  refine ⟨rfl, fun x => rfl, ?_⟩
  induction ops1 generalizing store with
  | nil => rfl
  | cons op rest ih =>
      rw [List.cons_append, List.cons_append, runOps, runOps]
      exact ih (applyOp store op)

end PostmanDemo
